import Mathlib

/-!
Verification of fast2bouquet.py: a shallow embedding of the pure core of
the script (identifier assignment, sorting, bouquet and EPG serialization,
filename normalization, configuration gating) together with proofs of the
specified properties. Python strings are modelled as Lean strings over
their character lists; Python machine-independent ints as Nat or Int.
Python string methods (lower, upper, split, strip, replace) are modelled
on the ASCII fragment, which is the fragment the properties quantify over.
-/

namespace F2B

/-! ## Character and string primitives (models of Python str methods) -/

/-- Word characters of the Python regex class backslash-w, ASCII fragment:
letters, digits and the underscore. -/
def isWordChar (c : Char) : Bool := c.isAlphanum || c == '_'

/-- Model of Python str.lower (ASCII fragment): lowercase every character. -/
def pyLower (s : String) : String := ⟨s.data.map Char.toLower⟩

/-- Model of Python str.upper (ASCII fragment): uppercase every character. -/
def pyUpper (s : String) : String := ⟨s.data.map Char.toUpper⟩

/-- Model of Python str.replace for single-character needle: replace every
occurrence of the character by the given string. -/
def replaceChar (needle : Char) (repl : List Char) : List Char → List Char
  | [] => []
  | c :: cs => (if c = needle then repl else [c]) ++ replaceChar needle repl cs

/-- Model of the expression url.replace(colon, percent-3a) at
fast2bouquet.py line 845: every colon becomes the three characters %3a. -/
def colonEsc (s : String) : String := ⟨replaceChar ':' ['%', '3', 'a'] s.data⟩

/-! ## normalize_name (fast2bouquet.py lines 207-222)

Python: re.sub replaces every maximal run of non-word characters by a
single dash, then str.strip removes leading and trailing dashes. -/

/-- Push a dash in front of a list unless the list already starts with
one; used to give each maximal run of non-word characters a single dash. -/
def dashCons (l : List Char) : List Char := if l.head? = some '-' then l else '-' :: l

/-- Model of re.sub applied to a pattern of one-or-more non-word
characters with a dash replacement: each maximal run of non-word
characters collapses to a single dash.  The else branch refrains from
emitting a second dash when the rest of the run has already produced
one, which is exactly the maximal-run semantics of the regex. -/
def collapseNonWord : List Char → List Char
  | [] => []
  | c :: cs =>
    if isWordChar c then c :: collapseNonWord cs
    else dashCons (collapseNonWord cs)

/-- Drop trailing dashes (the right half of Python str.strip with a dash
argument). -/
def dropDashEnd (l : List Char) : List Char := (l.reverse.dropWhile (· == '-')).reverse

/-- Model of Python str.strip applied with a dash argument: remove all
leading and all trailing dashes. -/
def pyStripDash (l : List Char) : List Char := dropDashEnd (l.dropWhile (· == '-'))

/-- Model of normalize_name (fast2bouquet.py lines 207-222). -/
def normalize_name (s : String) : String := ⟨pyStripDash (collapseNonWord s.data)⟩

/-- Bucket filename used by process_channels in multi-file mode
(fast2bouquet.py line 872): the provider file name stem, an underscore,
the normalized category slug, and the .tv extension. -/
def catFileName (pfx cat : String) : String := pfx ++ "_" ++ normalize_name cat ++ ".tv"

/-! ### Structural lemmas about normalize_name -/

/-- Two adjacent characters are never both dashes. -/
def noDD (a b : Char) : Prop := ¬(a = '-' ∧ b = '-')

theorem isWordChar_ne_dash {c : Char} (h : isWordChar c) : c ≠ '-' := by
  intro hc; subst hc; simp [isWordChar] at h

theorem mem_dashCons {c : Char} {l : List Char} (h : c ∈ dashCons l) : c = '-' ∨ c ∈ l := by
  unfold dashCons at h
  split at h
  · exact Or.inr h
  · rcases List.mem_cons.1 h with h | h
    · exact Or.inl h
    · exact Or.inr h

theorem chain'_dashCons {l : List Char} (h : List.Chain' noDD l) :
    List.Chain' noDD (dashCons l) := by
  unfold dashCons
  split
  · exact h
  · next hne =>
    refine List.chain'_cons'.2 ⟨?_, h⟩
    intro b hb
    intro ⟨_, hbdash⟩
    exact hne (by rw [hb, hbdash])

theorem collapseNonWord_mem {c : Char} : ∀ {l : List Char},
    c ∈ collapseNonWord l → isWordChar c ∨ c = '-'
  | [], h => by simp [collapseNonWord] at h
  | a :: as, h => by
    rw [collapseNonWord] at h
    split at h
    · next hw =>
      rcases List.mem_cons.1 h with h | h
      · exact Or.inl (h ▸ hw)
      · exact collapseNonWord_mem h
    · rcases mem_dashCons h with h | h
      · exact Or.inr h
      · exact collapseNonWord_mem h

theorem collapseNonWord_chain : ∀ l : List Char, List.Chain' noDD (collapseNonWord l)
  | [] => by simp [collapseNonWord]
  | a :: as => by
    rw [collapseNonWord]
    split
    · next hw =>
      refine List.chain'_cons'.2 ⟨?_, collapseNonWord_chain as⟩
      intro b _
      intro ⟨ha, _⟩
      exact isWordChar_ne_dash hw ha
    · exact chain'_dashCons (collapseNonWord_chain as)

/-- The first character surviving a dash-dropping dropWhile is not a dash. -/
theorem head?_dropWhileDash (l : List Char) :
    (l.dropWhile (· == '-')).head? ≠ some '-' := by
  induction l with
  | nil => simp
  | cons c cs ih =>
    by_cases h : c = '-'
    · subst h; simpa [List.dropWhile] using ih
    · have hb : (c == '-') = false := by simp [h]
      simp [List.dropWhile, hb, h]

theorem dropDashEnd_prefixOf (l : List Char) : dropDashEnd l <+: l := by
  unfold dropDashEnd
  have h := List.dropWhile_suffix (l := l.reverse) (p := (· == '-'))
  have h2 := List.reverse_prefix.2 h
  rwa [List.reverse_reverse] at h2

theorem prefixHead? {l₁ l₂ : List Char} (h : l₁ <+: l₂) :
    l₁.head? = none ∨ l₁.head? = l₂.head? := by
  rcases h with ⟨t, ht⟩
  subst ht
  cases l₁ with
  | nil => exact Or.inl rfl
  | cons a as => exact Or.inr rfl

theorem pyStripDash_head (l : List Char) : (pyStripDash l).head? ≠ some '-' := by
  unfold pyStripDash
  rcases prefixHead? (dropDashEnd_prefixOf (l.dropWhile (· == '-'))) with h | h
  · rw [h]; simp
  · rw [h]; exact head?_dropWhileDash l

theorem pyStripDash_getLast (l : List Char) : (pyStripDash l).getLast? ≠ some '-' := by
  unfold pyStripDash dropDashEnd
  rw [List.getLast?_reverse]
  exact head?_dropWhileDash _

theorem pyStripDash_mem {c : Char} {l : List Char} (h : c ∈ pyStripDash l) : c ∈ l := by
  unfold pyStripDash dropDashEnd at h
  have h1 := List.mem_reverse.1 h
  have h2 := (List.dropWhile_sublist _).mem h1
  have h3 := List.mem_reverse.1 h2
  exact (List.dropWhile_sublist _).mem h3

theorem chain'_noDD_reverse {x : List Char} (hx : List.Chain' noDD x) :
    List.Chain' noDD x.reverse := by
  rw [List.chain'_reverse]
  exact hx.imp fun a b hab => fun ⟨u, v⟩ => hab ⟨v, u⟩

theorem pyStripDash_chain {l : List Char} (h : List.Chain' noDD l) :
    List.Chain' noDD (pyStripDash l) := by
  unfold pyStripDash dropDashEnd
  have h1 : List.Chain' noDD (l.dropWhile (· == '-')) :=
    h.suffix (List.dropWhile_suffix _)
  have h3 : List.Chain' noDD ((l.dropWhile (· == '-')).reverse.dropWhile (· == '-')) :=
    (chain'_noDD_reverse h1).suffix (List.dropWhile_suffix _)
  exact chain'_noDD_reverse h3

/-! ## get_stable_sid (fast2bouquet.py lines 224-238)

The source computes the MD5 digest of the UTF-8 encoding of the unique id
and parses the first four characters of the hexadecimal digest string as
an integer.  The MD5 implementation below follows RFC 1321. -/

/-- UTF-8 encoding of a single character (RFC 3629). -/
def utf8Char (c : Char) : List Nat :=
  let n := c.toNat
  if n < 128 then [n]
  else if n < 2048 then [192 ||| (n >>> 6), 128 ||| (n &&& 63)]
  else if n < 65536 then
    [224 ||| (n >>> 12), 128 ||| ((n >>> 6) &&& 63), 128 ||| (n &&& 63)]
  else
    [240 ||| (n >>> 18), 128 ||| ((n >>> 12) &&& 63), 128 ||| ((n >>> 6) &&& 63),
     128 ||| (n &&& 63)]

/-- Model of Python str.encode with no argument: the UTF-8 bytes of the
string. -/
def utf8Bytes (s : String) : List Nat := s.data.foldr (fun c acc => utf8Char c ++ acc) []

/-- The modulus of 32-bit machine words. -/
def w32 : Nat := 4294967296

/-- Bitwise complement on 32-bit words. -/
def not32 (x : Nat) : Nat := 4294967295 ^^^ x

/-- Left rotation on 32-bit words. -/
def rotl32 (x n : Nat) : Nat := ((x <<< n) ||| (x >>> (32 - n))) % w32

/-- Per-round shift amounts of MD5 (RFC 1321). -/
def md5S : List Nat :=
  [7, 12, 17, 22, 7, 12, 17, 22, 7, 12, 17, 22, 7, 12, 17, 22,
   5, 9, 14, 20, 5, 9, 14, 20, 5, 9, 14, 20, 5, 9, 14, 20,
   4, 11, 16, 23, 4, 11, 16, 23, 4, 11, 16, 23, 4, 11, 16, 23,
   6, 10, 15, 21, 6, 10, 15, 21, 6, 10, 15, 21, 6, 10, 15, 21]

/-- Per-round additive constants of MD5 (RFC 1321): the integer parts of the
absolute sines of 1..64 scaled by 2 to the 32nd. -/
def md5K : List Nat :=
  [3614090360, 3905402710, 606105819, 3250441966, 4118548399, 1200080426,
   2821735955, 4249261313, 1770035416, 2336552879, 4294925233, 2304563134,
   1804603682, 4254626195, 2792965006, 1236535329, 4129170786, 3225465664,
   643717713, 3921069994, 3593408605, 38016083, 3634488961, 3889429448,
   568446438, 3275163606, 4107603335, 1163531501, 2850285829, 4243563512,
   1735328473, 2368359562, 4294588738, 2272392833, 1839030562, 4259657740,
   2763975236, 1272893353, 4139469664, 3200236656, 681279174, 3936430074,
   3572445317, 76029189, 3654602809, 3873151461, 530742520, 3299628645,
   4096336452, 1126891415, 2878612391, 4237533241, 1700485571, 2399980690,
   4293915773, 2240044497, 1873313359, 4264355552, 2734768916, 1309151649,
   4149444226, 3174756917, 718787259, 3951481745]

/-- One little-endian 32-bit word built from four bytes. -/
def leWord (b0 b1 b2 b3 : Nat) : Nat := b0 + 256 * b1 + 65536 * b2 + 16777216 * b3

/-- The sixteen little-endian message words of one 64-byte chunk. -/
def chunkWord (chunk : List Nat) (j : Nat) : Nat :=
  leWord (chunk.getD (4 * j) 0) (chunk.getD (4 * j + 1) 0)
    (chunk.getD (4 * j + 2) 0) (chunk.getD (4 * j + 3) 0)

/-- The four running words of the MD5 state. -/
structure MD5State where
  a : Nat
  b : Nat
  c : Nat
  d : Nat

/-- One of the 64 MD5 rounds (RFC 1321). -/
def md5Round (M : Nat → Nat) (st : MD5State) (i : Nat) : MD5State :=
  let fg :=
    if i < 16 then ((st.b &&& st.c) ||| (not32 st.b &&& st.d), i)
    else if i < 32 then ((st.d &&& st.b) ||| (not32 st.d &&& st.c), (5 * i + 1) % 16)
    else if i < 48 then (st.b ^^^ st.c ^^^ st.d, (3 * i + 5) % 16)
    else (st.c ^^^ (st.b ||| not32 st.d), (7 * i) % 16)
  let f2 := (fg.1 + st.a + md5K.getD i 0 + M fg.2) % w32
  { a := st.d, b := (st.b + rotl32 f2 (md5S.getD i 0)) % w32, c := st.b, d := st.c }

/-- Absorb one 64-byte chunk into the MD5 state. -/
def md5Chunk (st : MD5State) (chunk : List Nat) : MD5State :=
  let r := (List.range 64).foldl (md5Round (chunkWord chunk)) st
  { a := (st.a + r.a) % w32, b := (st.b + r.b) % w32,
    c := (st.c + r.c) % w32, d := (st.d + r.d) % w32 }

/-- Split a byte list into 64-byte chunks (fuel-driven so that it reduces). -/
def chunksGo : Nat → List Nat → List (List Nat)
  | 0, _ => []
  | k + 1, l => if l.isEmpty then [] else l.take 64 :: chunksGo k (l.drop 64)

/-- Split a byte list into chunks of 64 bytes. -/
def chunks64 (l : List Nat) : List (List Nat) := chunksGo l.length l

/-- Little-endian byte serialization of a 32-bit word. -/
def le32 (x : Nat) : List Nat :=
  [x % 256, (x >>> 8) % 256, (x >>> 16) % 256, (x >>> 24) % 256]

/-- Little-endian byte serialization of a 64-bit word. -/
def le64 (x : Nat) : List Nat :=
  [x % 256, (x >>> 8) % 256, (x >>> 16) % 256, (x >>> 24) % 256,
   (x >>> 32) % 256, (x >>> 40) % 256, (x >>> 48) % 256, (x >>> 56) % 256]

/-- MD5 padding: a 0x80 byte, zero bytes up to 56 modulo 64, then the bit
length of the message in eight little-endian bytes. -/
def md5Pad (msg : List Nat) : List Nat :=
  let len := msg.length
  let zeros := (119 - len % 64) % 64
  msg ++ [128] ++ List.replicate zeros 0 ++ le64 ((len * 8) % 18446744073709551616)

/-- The sixteen-byte MD5 digest of a byte list (RFC 1321). -/
def md5Digest (msg : List Nat) : List Nat :=
  let st0 : MD5State := ⟨1732584193, 4023233417, 2562383102, 271733878⟩
  let fin := (chunks64 (md5Pad msg)).foldl md5Chunk st0
  le32 fin.a ++ le32 fin.b ++ le32 fin.c ++ le32 fin.d

/-- Lowercase hexadecimal digit characters, as hashlib hexdigest emits. -/
def hexChar (n : Nat) : Char :=
  if n < 10 then Char.ofNat (48 + n) else Char.ofNat (87 + n)

/-- Model of hashlib md5 hexdigest: two lowercase hexadecimal characters per
digest byte, high nibble first. -/
def hexdigest (bytes : List Nat) : List Char :=
  bytes.foldr (fun b acc => hexChar (b / 16) :: hexChar (b % 16) :: acc) []

/-- Value of one hexadecimal digit character, the digit step of int(s, 16). -/
def hexVal (c : Char) : Nat :=
  if c.toNat ≥ 97 then c.toNat - 87 else c.toNat - 48

/-- Model of Python int(s, 16) on a list of hexadecimal digit characters. -/
def parseHex (l : List Char) : Nat := l.foldl (fun a c => a * 16 + hexVal c) 0

/-- Model of get_stable_sid (fast2bouquet.py lines 224-238): the integer value
of the first four hexadecimal characters of the MD5 digest of the UTF-8
encoding of the identifier. -/
def get_stable_sid (unique_id : String) : Nat :=
  parseHex ((hexdigest (md5Digest (utf8Bytes unique_id))).take 4)

set_option maxRecDepth 100000 in
/-- Reference values: the embedding agrees with hashlib on known digests
(md5 of the empty string starts d41d, md5 of abc starts 9001). -/
theorem get_stable_sid_reference :
    get_stable_sid "" = 54301 ∧ get_stable_sid "abc" = 36865 := by
  constructor <;> rfl

theorem hexVal_hexChar : ∀ n < 16, hexVal (hexChar n) = n := by decide

theorem parseHex_nibbles {n0 n1 n2 n3 : Nat} (h0 : n0 < 16) (h1 : n1 < 16)
    (h2 : n2 < 16) (h3 : n3 < 16) :
    parseHex [hexChar n0, hexChar n1, hexChar n2, hexChar n3] =
      n0 * 4096 + n1 * 256 + n2 * 16 + n3 := by
  simp only [parseHex, List.foldl]
  rw [hexVal_hexChar _ h0, hexVal_hexChar _ h1, hexVal_hexChar _ h2, hexVal_hexChar _ h3]
  ring

/-- C3: get_stable_sid is a total pure function from strings to integers in
the 16-bit range, equal to the value of the first 16 bits (the first two
bytes) of the 128-bit MD5 digest of the UTF-8 bytes of the input; the digest
has exactly 16 bytes, and the function is deterministic by construction. -/
theorem c3_get_stable_sid : ∀ s : String,
    get_stable_sid s < 65536 ∧
    get_stable_sid s =
      256 * (md5Digest (utf8Bytes s)).getD 0 0 + (md5Digest (utf8Bytes s)).getD 1 0 ∧
    (md5Digest (utf8Bytes s)).length = 16 := by
  intro s
  obtain ⟨A, B, C, D, hd⟩ :
      ∃ A B C D, md5Digest (utf8Bytes s) = le32 A ++ le32 B ++ le32 C ++ le32 D :=
    ⟨_, _, _, _, rfl⟩
  rw [get_stable_sid, hd]
  have hb0 : A % 256 < 256 := Nat.mod_lt _ (by omega)
  have hb1 : (A >>> 8) % 256 < 256 := Nat.mod_lt _ (by omega)
  have hlist : le32 A ++ le32 B ++ le32 C ++ le32 D =
      A % 256 :: (A >>> 8) % 256 ::
        ((A >>> 16) % 256 :: (A >>> 24) % 256 :: (le32 B ++ le32 C ++ le32 D)) := by
    simp [le32]
  rw [hlist]
  have htake : (hexdigest (A % 256 :: (A >>> 8) % 256 ::
      ((A >>> 16) % 256 :: (A >>> 24) % 256 :: (le32 B ++ le32 C ++ le32 D)))).take 4 =
      [hexChar (A % 256 / 16), hexChar (A % 256 % 16),
       hexChar ((A >>> 8) % 256 / 16), hexChar ((A >>> 8) % 256 % 16)] := by
    simp [hexdigest]
  rw [htake, parseHex_nibbles (by omega) (by omega) (by omega) (by omega)]
  simp only [List.getD_cons_zero, List.getD_cons_succ]
  refine ⟨by omega, by omega, ?_⟩
  simp [le32]

/-! ## Channel records and the sort engine (fast2bouquet.py lines 1258-1266)

The fetchers produce dictionaries with the keys modelled by the structure
below; ch_number is None-free in the source (the fetchers substitute their
own sentinels) but the sort key reads it through dict.get with the default
999999, which the Option models. -/

/-- One canonical channel record as produced by the provider fetchers
(fast2bouquet.py lines 494-504, 616-624, 690-699). -/
structure Chan where
  sid : Nat
  ch_number : Option Int
  name : String
  category : String
  channel_id : String
  logo_url : String
  url : String
  user_agent : Option String
deriving DecidableEq

/-- The sort key of main (fast2bouquet.py lines 1262-1266): lowercased
category, channel number with the 999999 default, lowercased name. -/
def sortKey (c : Chan) : List Char × Int × List Char :=
  ((pyLower c.category).data, c.ch_number.getD 999999, (pyLower c.name).data)

/-- Lexicographic order on sort keys: the order Python uses to compare the
key tuples. -/
def keyLe (x y : List Char × Int × List Char) : Prop :=
  x.1 < y.1 ∨ (x.1 = y.1 ∧ (x.2.1 < y.2.1 ∨ (x.2.1 = y.2.1 ∧ x.2.2 ≤ y.2.2)))

instance : DecidableRel keyLe := fun x y => by unfold keyLe; infer_instance

/-- Record comparison through the sort key. -/
def chanLe (a b : Chan) : Prop := keyLe (sortKey a) (sortKey b)

instance : DecidableRel chanLe := fun a b => by unfold chanLe; infer_instance

theorem keyLe_total (x y : List Char × Int × List Char) : keyLe x y ∨ keyLe y x := by
  unfold keyLe
  rcases lt_trichotomy x.1 y.1 with h | h | h
  · exact Or.inl (Or.inl h)
  · rcases lt_trichotomy x.2.1 y.2.1 with h2 | h2 | h2
    · exact Or.inl (Or.inr ⟨h, Or.inl h2⟩)
    · rcases le_total x.2.2 y.2.2 with h3 | h3
      · exact Or.inl (Or.inr ⟨h, Or.inr ⟨h2, h3⟩⟩)
      · exact Or.inr (Or.inr ⟨h.symm, Or.inr ⟨h2.symm, h3⟩⟩)
    · exact Or.inr (Or.inr ⟨h.symm, Or.inl h2⟩)
  · exact Or.inr (Or.inl h)

theorem keyLe_trans {x y z : List Char × Int × List Char}
    (h1 : keyLe x y) (h2 : keyLe y z) : keyLe x z := by
  rcases h1 with h1 | ⟨e1, h1⟩
  · rcases h2 with h2 | ⟨e2, _⟩
    · exact Or.inl (lt_trans h1 h2)
    · exact Or.inl (e2 ▸ h1)
  · rcases h2 with h2 | ⟨e2, h2⟩
    · exact Or.inl (e1 ▸ h2)
    · refine Or.inr ⟨e1.trans e2, ?_⟩
      rcases h1 with h1 | ⟨f1, h1⟩
      · rcases h2 with h2 | ⟨f2, _⟩
        · exact Or.inl (lt_trans h1 h2)
        · exact Or.inl (f2 ▸ h1)
      · rcases h2 with h2 | ⟨f2, h2⟩
        · exact Or.inl (f1 ▸ h2)
        · exact Or.inr ⟨f1.trans f2, le_trans h1 h2⟩

instance : IsTotal Chan chanLe := ⟨fun a b => keyLe_total _ _⟩

instance : IsTrans Chan chanLe := ⟨fun _ _ _ => keyLe_trans⟩

/-- Model of the channels.sort call of main (fast2bouquet.py lines
1258-1266).  Python list.sort is a stable ascending sort by the key, and a
stable sort's output is uniquely determined by the key order, so the
insertion sort below is exactly its result. -/
def arrange (channels : List Chan) : List Chan := channels.insertionSort chanLe

theorem keyLe_snd {x y : List Char × Int × List Char} (h : keyLe x y) (h1 : x.1 = y.1) :
    x.2.1 ≤ y.2.1 := by
  rcases h with h | ⟨_, h⟩
  · rw [h1] at h; exact absurd h (lt_irrefl _)
  · rcases h with h | ⟨f, _⟩
    · exact le_of_lt h
    · exact le_of_eq f

theorem keyLe_thd {x y : List Char × Int × List Char} (h : keyLe x y) (h1 : x.1 = y.1)
    (h2 : x.2.1 = y.2.1) : x.2.2 ≤ y.2.2 := by
  rcases h with h | ⟨_, h⟩
  · rw [h1] at h; exact absurd h (lt_irrefl _)
  · rcases h with h | ⟨_, h⟩
    · rw [h2] at h; exact absurd h (lt_irrefl _)
    · exact h

/-- C4 (amended): arrange sorts ascending by the key of lowercased category,
channel number with the 999999 default, and lowercased name; the output is a
permutation of the input; any two records with equal category and equal
channel number appear in ascending case-insensitive name order; and a record
with an absent channel number precedes a record of the same lowercased
category with a present channel number only when that present number is at
least the sentinel 999999 (so absent numbers sort after all present numbers
below the sentinel, not after all present numbers). -/
theorem c4_arrange_sorted : ∀ l : List Chan,
    (arrange l).Perm l ∧
    (arrange l).Pairwise chanLe ∧
    (arrange l).Pairwise (fun a b =>
      a.category = b.category → a.ch_number = b.ch_number →
        (pyLower a.name).data ≤ (pyLower b.name).data) ∧
    (arrange l).Pairwise (fun a b =>
      (pyLower a.category).data = (pyLower b.category).data → a.ch_number = none →
        ∀ n : Int, b.ch_number = some n → 999999 ≤ n) := by
  intro l
  have hs : (arrange l).Pairwise chanLe := List.sorted_insertionSort chanLe l
  refine ⟨List.perm_insertionSort chanLe l, hs, ?_, ?_⟩
  · refine hs.imp ?_
    intro a b hab hcat hnum
    exact keyLe_thd hab (by simp [sortKey, hcat]) (by simp [sortKey, hnum])
  · refine hs.imp ?_
    intro a b hab hcat ha n hb
    have h := keyLe_snd hab (by simpa [sortKey] using hcat)
    rw [sortKey, sortKey] at h
    simp only [ha, hb, Option.getD_none, Option.getD_some] at h
    exact h

/-- A record with no channel number, in the news category. -/
def rAbsent : Chan :=
  { sid := 1, ch_number := none, name := "b", category := "news",
    channel_id := "x1", logo_url := "", url := "u1", user_agent := none }

/-- A record with the very large channel number 1000000, same category. -/
def rBig : Chan :=
  { sid := 2, ch_number := some 1000000, name := "a", category := "news",
    channel_id := "x2", logo_url := "", url := "u2", user_agent := none }

/-- C4 counterexample: a record with an absent channel number does not sort
after all present channel numbers — with a present number of 1000000 in the
same category, the absent-number record is placed first. -/
theorem c4_sentinel_counterexample :
    rAbsent.ch_number = none ∧ rBig.ch_number = some 1000000 ∧
    rAbsent.category = rBig.category ∧
    arrange [rBig, rAbsent] = [rAbsent, rBig] := by
  refine ⟨rfl, rfl, rfl, ?_⟩
  decide

/-- C10: for every input string, normalize_name returns a slug containing only
word characters and single dashes — no two consecutive dashes and no leading or
trailing dash — and a category consisting solely of non-word characters, such
as three asterisks, normalizes to the empty string, in which case the
multi-file bucket filename is the provider stem followed by an underscore and
the .tv extension with an empty slug segment. -/
theorem c10_normalize_name_slug :
    (∀ s : String,
      (∀ c ∈ (normalize_name s).data, isWordChar c = true ∨ c = '-') ∧
      List.Chain' noDD (normalize_name s).data ∧
      (normalize_name s).data.head? ≠ some '-' ∧
      (normalize_name s).data.getLast? ≠ some '-') ∧
    normalize_name "***" = "" ∧
    (∀ pfx : String, catFileName pfx "***" = pfx ++ "_.tv") := by
  refine ⟨fun s => ⟨?_, ?_, ?_, ?_⟩, ?_, ?_⟩
  · intro c hc
    exact collapseNonWord_mem (pyStripDash_mem hc)
  · exact pyStripDash_chain (collapseNonWord_chain _)
  · exact pyStripDash_head _
  · exact pyStripDash_getLast _
  · decide
  · intro pfx
    show pfx ++ "_" ++ normalize_name "***" ++ ".tv" = pfx ++ "_.tv"
    have h : normalize_name "***" = "" := by decide
    rw [h, String.append_empty, String.append_assoc]
    have h2 : "_" ++ ".tv" = "_.tv" := by decide
    rw [h2]

/-! ## Service entry serialization (fast2bouquet.py lines 837-862) -/

/-- Uppercase hexadecimal digit characters. -/
def hexCharUpper (n : Nat) : Char :=
  if n < 10 then Char.ofNat (48 + n) else Char.ofNat (55 + n)

/-- Hexadecimal rendering of a natural number, most significant digit
first, fuel-driven so that it reduces. -/
def toHexUpperGo : Nat → Nat → List Char
  | 0, n => [hexCharUpper (n % 16)]
  | fuel + 1, n =>
    if n < 16 then [hexCharUpper n]
    else toHexUpperGo fuel (n / 16) ++ [hexCharUpper (n % 16)]

/-- Uppercase hexadecimal digits of a natural number. -/
def toHexUpper (n : Nat) : List Char := toHexUpperGo n n

/-- Model of the Python format specifier percent-04X (line 838): uppercase
hexadecimal, left padded with zeros to at least four characters. -/
def hex4 (n : Nat) : String := ⟨List.replicate (4 - (toHexUpper n).length) '0' ++ toHexUpper n⟩

/-- Character class of the uppercase hexadecimal alphabet. -/
def isHexDigitUp (c : Char) : Bool :=
  (48 ≤ c.toNat && c.toNat ≤ 57) || (65 ≤ c.toNat && c.toNat ≤ 70)

theorem hexCharUpper_isHex : ∀ n < 16, isHexDigitUp (hexCharUpper n) = true := by decide

theorem toHexUpperGo_isHex : ∀ fuel n, ∀ c ∈ toHexUpperGo fuel n, isHexDigitUp c = true := by
  intro fuel
  induction fuel with
  | zero => intro n c hc; simp only [toHexUpperGo, List.mem_singleton] at hc; subst hc
            exact hexCharUpper_isHex _ (Nat.mod_lt _ (by omega))
  | succ fuel ih =>
    intro n c hc
    rw [toHexUpperGo] at hc
    split at hc
    · next h =>
      rw [List.mem_singleton] at hc; subst hc
      exact hexCharUpper_isHex _ h
    · rcases List.mem_append.1 hc with hc | hc
      · exact ih _ _ hc
      · rw [List.mem_singleton] at hc; subst hc
        exact hexCharUpper_isHex _ (Nat.mod_lt _ (by omega))

theorem toHexUpperGo_length : ∀ fuel n k, n ≤ fuel → n < 16 ^ (k + 1) →
    (toHexUpperGo fuel n).length ≤ k + 1 := by
  intro fuel
  induction fuel with
  | zero => intro n k _ _; simp [toHexUpperGo]
  | succ fuel ih =>
    intro n k hn hk
    rw [toHexUpperGo]
    split
    · simp
    · next h =>
      have hk1 : 1 ≤ k := by
        by_contra hc
        have : k = 0 := by omega
        subst this
        simp at hk
        omega
      have h1 : n / 16 ≤ fuel := by omega
      have h2 : n / 16 < 16 ^ (k - 1 + 1) := by
        have : 16 ^ (k - 1 + 1) * 16 = 16 ^ (k + 1) := by
          rw [← pow_succ]
          congr 1
          omega
        have := Nat.div_lt_iff_lt_mul (k := 16) (x := n) (y := 16 ^ (k - 1 + 1)) (by omega)
        omega
      have := ih (n / 16) (k - 1) h1 h2
      simp only [List.length_append, List.length_singleton]
      omega

theorem toHexUpper_length_le {n : Nat} (h : n < 65536) : (toHexUpper n).length ≤ 4 := by
  have := toHexUpperGo_length n n 3 (le_refl n) (by norm_num; omega)
  simpa [toHexUpper] using this

theorem hex4_shape {n : Nat} (h : n < 65536) :
    (hex4 n).data.length = 4 ∧ ∀ c ∈ (hex4 n).data, isHexDigitUp c = true := by
  constructor
  · show (List.replicate (4 - (toHexUpper n).length) '0' ++ toHexUpper n).length = 4
    rw [List.length_append, List.length_replicate]
    have h1 := toHexUpper_length_le h
    have h2 : (toHexUpper n).length ≥ 1 := by
      unfold toHexUpper
      cases n with
      | zero => simp [toHexUpperGo]
      | succ m =>
        rw [toHexUpperGo]
        split
        · simp
        · simp
    omega
  · intro c hc
    rcases List.mem_append.1 hc with hc | hc
    · rw [List.eq_of_mem_replicate hc]
      decide
    · exact toHexUpperGo_isHex _ _ _ hc

theorem hex4_chars_hex (n : Nat) : ∀ c ∈ (hex4 n).data, isHexDigitUp c = true := by
  intro c hc
  rcases List.mem_append.1 hc with hc | hc
  · rw [List.eq_of_mem_replicate hc]
    decide
  · exact toHexUpperGo_isHex _ _ _ hc

/-- The user-agent suffix of the stream locator (fast2bouquet.py lines
843-844): present only when the record carries a user agent that is not the
empty string (Python truthiness). -/
def uaSuffix (c : Chan) : String :=
  match c.user_agent with
  | none => ""
  | some u => if u = "" then "" else "#User-Agent=" ++ u

/-- The stream locator (fast2bouquet.py line 845): the user-agent directive
is appended to the raw stream URL first, and every colon of the combined
string is then replaced by percent-3a. -/
def urlEsc (c : Chan) : String := colonEsc (c.url ++ uaSuffix c)

/-- The service descriptor line of one channel (fast2bouquet.py line 861),
without its terminating newline; tidU is the transponder id already
uppercased at line 823. -/
def serviceLine (service_type tidU : String) (c : Chan) : String :=
  "#SERVICE " ++ service_type ++ ":0:1:" ++ hex4 c.sid ++ ":" ++ tidU ++
    ":0:0:0:0:0:" ++ urlEsc c ++ ":" ++ c.name

/-- The description line of one channel (fast2bouquet.py line 862), without
its terminating newline. -/
def descLine (c : Chan) : String := "#DESCRIPTION " ++ c.name

/-- The two-line bouquet entry of one channel (fast2bouquet.py lines
861-862), appended to the bucket as a single string. -/
def chanEntry (service_type tidU : String) (c : Chan) : String :=
  serviceLine service_type tidU c ++ "\n" ++ descLine c ++ "\n"

theorem colonEsc_mem {c : Char} : ∀ {l : List Char},
    c ∈ replaceChar ':' ['%', '3', 'a'] l → c ∈ l ∨ c ∈ ['%', '3', 'a']
  | [], h => by simp [replaceChar] at h
  | a :: as, h => by
    rw [replaceChar] at h
    rcases List.mem_append.1 h with h | h
    · split at h
      · exact Or.inr h
      · rw [List.mem_singleton] at h
        exact Or.inl (h ▸ List.mem_cons_self a as)
    · rcases colonEsc_mem h with h | h
      · exact Or.inl (List.mem_cons_of_mem _ h)
      · exact Or.inr h

theorem isHexDigitUp_ne_nl {c : Char} (h : isHexDigitUp c = true) : c ≠ '\n' := by
  intro hc
  subst hc
  simp [isHexDigitUp] at h

theorem urlEsc_no_nl {c : Chan} (hurl : '\n' ∉ c.url.data)
    (hua : '\n' ∉ (uaSuffix c).data) : '\n' ∉ (urlEsc c).data := by
  intro h
  have h2 : '\n' ∈ replaceChar ':' ['%', '3', 'a'] (c.url ++ uaSuffix c).data := h
  rcases colonEsc_mem h2 with h3 | h3
  · rw [String.data_append] at h3
    rcases List.mem_append.1 h3 with h4 | h4
    · exact hurl h4
    · exact hua h4
  · simp at h3

theorem serviceLine_no_nl {st tidU : String} {c : Chan}
    (hsid : c.sid < 65536)
    (hthex : ∀ ch ∈ tidU.data, isHexDigitUp ch = true)
    (hst : '\n' ∉ st.data) (hurl : '\n' ∉ c.url.data) (hname : '\n' ∉ c.name.data)
    (hua : '\n' ∉ (uaSuffix c).data) :
    '\n' ∉ (serviceLine st tidU c).data := by
  intro h
  simp only [serviceLine, String.data_append, List.mem_append] at h
  rcases h with ((((((((h | h) | h) | h) | h) | h) | h) | h) | h) | h
  · exact absurd h (by decide)
  · exact hst h
  · exact absurd h (by decide)
  · exact isHexDigitUp_ne_nl ((hex4_shape hsid).2 _ h) rfl
  · exact absurd h (by decide)
  · exact isHexDigitUp_ne_nl (hthex _ h) rfl
  · exact absurd h (by decide)
  · exact urlEsc_no_nl hurl hua h
  · exact absurd h (by decide)
  · exact hname h

/-- C6: every channel record serializes to exactly two lines — a service
descriptor line carrying the service type, the SID as four uppercase
hexadecimal digits, the transponder tag, the stream locator and the display
name, then a description line repeating the display name — and the stream
locator is the stream URL with the user-agent directive appended first and
every colon of the combined string then replaced by percent-3a, so the
append happens before the escaping. -/
theorem c6_entry_encoding (st tidU : String) (c : Chan)
    (hsid : c.sid < 65536)
    (hthex : ∀ ch ∈ tidU.data, isHexDigitUp ch = true)
    (hst : '\n' ∉ st.data) (hurl : '\n' ∉ c.url.data) (hname : '\n' ∉ c.name.data)
    (hua : '\n' ∉ (uaSuffix c).data) :
    chanEntry st tidU c = serviceLine st tidU c ++ "\n" ++ descLine c ++ "\n" ∧
    serviceLine st tidU c =
      "#SERVICE " ++ st ++ ":0:1:" ++ hex4 c.sid ++ ":" ++ tidU ++
        ":0:0:0:0:0:" ++ urlEsc c ++ ":" ++ c.name ∧
    descLine c = "#DESCRIPTION " ++ c.name ∧
    '\n' ∉ (serviceLine st tidU c).data ∧
    '\n' ∉ (descLine c).data ∧
    (hex4 c.sid).data.length = 4 ∧
    (∀ ch ∈ (hex4 c.sid).data, isHexDigitUp ch = true) ∧
    urlEsc c = colonEsc (c.url ++ uaSuffix c) ∧
    (∀ u, c.user_agent = some u → u ≠ "" → uaSuffix c = "#User-Agent=" ++ u) := by
  refine ⟨rfl, rfl, rfl, serviceLine_no_nl hsid hthex hst hurl hname hua, ?_,
    (hex4_shape hsid).1, (hex4_shape hsid).2, rfl, ?_⟩
  · intro h
    simp only [descLine, String.data_append, List.mem_append] at h
    rcases h with h | h
    · exact absurd h (by decide)
    · exact hname h
  · intro u hu hne
    simp [uaSuffix, hu, hne]

/-! ## Single-bouquet assembly (fast2bouquet.py lines 826-870)

In one-bouquet mode every record goes to one bucket; a pair of marker
lines is appended whenever the record's category differs from the mutable
current_marker, which starts as Python None. -/

/-- The two marker lines of a category transition (fast2bouquet.py lines
868-869): a fixed 1:64 sentinel service line carrying the category, and a
description line repeating it. -/
def markerLines (cat : String) : List String :=
  ["#SERVICE 1:64:1:0:0:0:0:0:0:0::" ++ cat ++ "\n", "#DESCRIPTION " ++ cat ++ "\n"]

/-- The one-bouquet loop of process_channels (fast2bouquet.py lines
837-870, bouquet stream only): compare each record's category against
current_marker, emit markers on change, then the entry. -/
def oneBouquetGo (st tidU : String) : Option String → List Chan → List String
  | _, [] => []
  | cur, c :: cs =>
    if some c.category ≠ cur then
      markerLines c.category ++
        (chanEntry st tidU c :: oneBouquetGo st tidU (some c.category) cs)
    else
      chanEntry st tidU c :: oneBouquetGo st tidU cur cs

/-- The full single-bouquet stream: the name header of line 827 followed by
the loop output. -/
def oneBouquetLines (st tidU display : String) (channels : List Chan) : List String :=
  ("#NAME " ++ display ++ "\n") :: oneBouquetGo st tidU none channels

/-- The specification reading of the marker rule: a marker goes immediately
before a record exactly when its category differs from the immediately
preceding record's category, the very first record included (tracked here as
the category of the previous record, none at the start). -/
def specOneGo (st tidU : String) : Option String → List Chan → List String
  | _, [] => []
  | prev, c :: cs =>
    (if prev ≠ some c.category then markerLines c.category else []) ++
      (chanEntry st tidU c :: specOneGo st tidU (some c.category) cs)

theorem oneBouquetGo_eq_specOneGo (st tidU : String) :
    ∀ (l : List Chan) (cur : Option String),
      oneBouquetGo st tidU cur l = specOneGo st tidU cur l := by
  intro l
  induction l with
  | nil => intro cur; rfl
  | cons c cs ih =>
    intro cur
    rw [oneBouquetGo, specOneGo]
    by_cases h : some c.category = cur
    · subst h
      simp [ih]
    · have h2 : ¬ cur = some c.category := fun hh => h hh.symm
      simp [h, h2, ih]

/-- A minimal record with the given category and name. -/
def mkCat (cat nm : String) : Chan :=
  { sid := 0, ch_number := none, name := nm, category := cat,
    channel_id := "", logo_url := "", url := "u", user_agent := none }

/-- C5: in one-bouquet mode the emitted stream equals the stream in which a
marker pair is inserted immediately before a record exactly when its
category differs from the immediately preceding record's category, the very
first record included; and markers are not deduplicated — a category
reappearing non-contiguously produces a second marker, as the concrete
three-record run with categories x, y, x shows (two x markers). -/
theorem c5_single_bouquet_markers :
    (∀ (st tidU display : String) (channels : List Chan),
      oneBouquetLines st tidU display channels =
        ("#NAME " ++ display ++ "\n") :: specOneGo st tidU none channels) ∧
    List.count ("#SERVICE 1:64:1:0:0:0:0:0:0:0::x\n")
      (oneBouquetLines "1" "T" "P" [mkCat "x" "a", mkCat "y" "b", mkCat "x" "c"]) = 2 := by
  constructor
  · intro st tidU display channels
    rw [oneBouquetLines, oneBouquetGo_eq_specOneGo]
  · decide

/-! ## Multi-file assembly (fast2bouquet.py lines 871-875)

bouquet_contents is a defaultdict of lists keyed by filename; reading a
missing key yields the empty list, appends create the key at the end in
insertion order.  An ordered association list models it exactly. -/

/-- The bucket map: filename to list of appended strings, insertion
ordered. -/
abbrev Buckets := List (String × List String)

/-- Read a bucket; a missing key reads as the empty list, as in
defaultdict(list). -/
def bGet (bs : Buckets) (k : String) : List String :=
  match bs.find? (fun kv => kv.1 == k) with
  | some kv => kv.2
  | none => []

/-- Append lines to a bucket: in place for an existing key, at the end for
a new key (defaultdict insertion order). -/
def bAppend : Buckets → String → List String → Buckets
  | [], k, v => [(k, v)]
  | (k0, v0) :: rest, k, v =>
    if k0 = k then (k0, v0 ++ v) :: rest else (k0, v0) :: bAppend rest k v

/-- The per-category bucket header line (fast2bouquet.py line 874). -/
def multiHeader (display cat : String) : String :=
  "#NAME " ++ display ++ " " ++ cat ++ "\n"

/-- One loop iteration of process_channels in multi-file mode
(fast2bouquet.py lines 871-875): compute the bucket filename from the
category, emit the header on first touch, then append the entry. -/
def multiStep (st tidU pfx display : String) (bs : Buckets) (c : Chan) : Buckets :=
  if (bGet bs (catFileName pfx c.category)).isEmpty then
    bAppend (bAppend bs (catFileName pfx c.category) [multiHeader display c.category])
      (catFileName pfx c.category) [chanEntry st tidU c]
  else
    bAppend bs (catFileName pfx c.category) [chanEntry st tidU c]

/-- The full multi-file bucket map of a channel list. -/
def multiBouquet (st tidU pfx display : String) (channels : List Chan) : Buckets :=
  channels.foldl (multiStep st tidU pfx display) []

/-- Discriminator of the header line inside a bucket: the second character
of a name header is N, while every channel entry starts with the sharp-S of
a service line. -/
def isNameHeader (s : String) : Bool := s.data.getD 1 ' ' == 'N'

theorem getD1_append_left {l₁ l₂ : List Char} (h : 1 < l₁.length) :
    (l₁ ++ l₂).getD 1 ' ' = l₁.getD 1 ' ' := by
  unfold List.getD
  rw [List.get?_append h]

theorem isNameHeader_multiHeader (display cat : String) :
    isNameHeader (multiHeader display cat) = true := by
  unfold isNameHeader multiHeader
  simp only [String.data_append, List.append_assoc]
  rw [getD1_append_left (by decide)]
  decide

theorem isNameHeader_chanEntry (st tidU : String) (c : Chan) :
    isNameHeader (chanEntry st tidU c) = false := by
  unfold isNameHeader chanEntry serviceLine
  simp only [String.data_append, List.append_assoc]
  rw [getD1_append_left (by decide)]
  decide

/-- A well-formed bucket: a name header first, no other name header. -/
def BOk (v : List String) : Prop :=
  ∃ hd tl, v = hd :: tl ∧ isNameHeader hd = true ∧
    tl.countP (fun s => isNameHeader s) = 0

theorem BOk.append_entry {v : List String} (h : BOk v) {e : String}
    (he : isNameHeader e = false) : BOk (v ++ [e]) := by
  rcases h with ⟨hd, tl, rfl, hh, hc⟩
  exact ⟨hd, tl ++ [e], by simp, hh, by simp [List.countP_append, hc, List.countP_cons, he]⟩

theorem BOk.countP_one {v : List String} (h : BOk v) :
    v.countP (fun s => isNameHeader s) = 1 := by
  rcases h with ⟨hd, tl, rfl, hh, hc⟩
  simp [List.countP_cons, hc, hh]

theorem BOk.ne_nil {v : List String} (h : BOk v) : v ≠ [] := by
  rcases h with ⟨hd, tl, rfl, _, _⟩
  simp

theorem bAppend_keys (k : String) (v : List String) : ∀ bs : Buckets,
    (bAppend bs k v).map Prod.fst =
      if k ∈ bs.map Prod.fst then bs.map Prod.fst else bs.map Prod.fst ++ [k]
  | [] => by simp [bAppend]
  | (k0, v0) :: rest => by
    rw [bAppend]
    by_cases h : k0 = k
    · subst h
      simp
    · have hne : ¬ k = k0 := fun hh => h hh.symm
      simp only [if_neg h, List.map_cons, bAppend_keys k v rest]
      by_cases hmem : k ∈ rest.map Prod.fst
      · simp [hmem, hne]
      · simp [hmem, hne]

theorem bGet_bAppend_self (k : String) (v : List String) : ∀ bs : Buckets,
    bGet (bAppend bs k v) k = bGet bs k ++ v
  | [] => by simp [bAppend, bGet, List.find?]
  | (k0, v0) :: rest => by
    rw [bAppend]
    by_cases h : k0 = k
    · subst h
      simp [bGet, List.find?]
    · have hb : (k0 == k) = false := by simp [h]
      simp only [if_neg h, bGet, List.find?, hb]
      exact bGet_bAppend_self k v rest

theorem bAppend_mem {k : String} {v : List String} {kv : String × List String} :
    ∀ {bs : Buckets}, kv ∈ bAppend bs k v →
      kv ∈ bs ∨ (kv.1 = k ∧ kv.2 = bGet bs k ++ v)
  | [], h => by
    simp [bAppend] at h
    subst h
    exact Or.inr ⟨rfl, by simp [bGet, List.find?]⟩
  | (k0, v0) :: rest, h => by
    rw [bAppend] at h
    split at h
    · next he =>
      subst he
      rcases List.mem_cons.1 h with h | h
      · subst h
        exact Or.inr ⟨rfl, by simp [bGet, List.find?]⟩
      · exact Or.inl (List.mem_cons_of_mem _ h)
    · next he =>
      rcases List.mem_cons.1 h with h | h
      · exact Or.inl (h ▸ List.mem_cons_self _ _)
      · rcases bAppend_mem h with h2 | ⟨h2, h3⟩
        · exact Or.inl (List.mem_cons_of_mem _ h2)
        · refine Or.inr ⟨h2, ?_⟩
          have hb : (k0 == k) = false := by simp [he]
          rw [h3]
          simp [bGet, List.find?, hb]

theorem bGet_mem_of_mem_keys {k : String} : ∀ {bs : Buckets},
    k ∈ bs.map Prod.fst → ∃ kv ∈ bs, kv.1 = k ∧ bGet bs k = kv.2
  | [], h => by simp at h
  | (k0, v0) :: rest, h => by
    by_cases he : k0 = k
    · subst he
      exact ⟨(k0, v0), List.mem_cons_self _ _, rfl, by simp [bGet, List.find?]⟩
    · have hb : (k0 == k) = false := by simp [he]
      have h2 : k ∈ rest.map Prod.fst := by
        rw [List.map_cons] at h
        rcases List.mem_cons.1 h with h | h
        · exact absurd h.symm he
        · exact h
      rcases bGet_mem_of_mem_keys h2 with ⟨kv, hm, hk, hg⟩
      exact ⟨kv, List.mem_cons_of_mem _ hm, hk, by simp [bGet, List.find?, hb]; exact hg⟩

theorem bGet_ne_nil_mem {k : String} {bs : Buckets} (h : bGet bs k ≠ []) :
    ∃ kv ∈ bs, kv.1 = k ∧ bGet bs k = kv.2 := by
  unfold bGet at h ⊢
  rcases hf : bs.find? (fun kv => kv.1 == k) with _ | kv
  · rw [hf] at h; simp at h
  · have hm := List.mem_of_find?_eq_some hf
    have hk := List.find?_some hf
    exact ⟨kv, hm, by simpa using hk, by rw [hf]⟩

theorem multiStep_key_mem {st tidU pfx display : String} {bs : Buckets} {c : Chan} :
    catFileName pfx c.category ∈ (multiStep st tidU pfx display bs c).map Prod.fst := by
  unfold multiStep
  split <;> rw [bAppend_keys] <;> split <;> simp_all

theorem multiStep_keys_mono {st tidU pfx display : String} {bs : Buckets} {c : Chan} :
    bs.map Prod.fst ⊆ (multiStep st tidU pfx display bs c).map Prod.fst := by
  unfold multiStep
  by_cases hk : catFileName pfx c.category ∈ bs.map Prod.fst
  · split <;> simp [bAppend_keys, hk, List.subset_append_left]
  · split <;> simp [bAppend_keys, hk, List.subset_append_left]

theorem multiStep_keys_bound {st tidU pfx display : String} {bs : Buckets} {c : Chan} :
    (multiStep st tidU pfx display bs c).map Prod.fst ⊆
      bs.map Prod.fst ++ [catFileName pfx c.category] := by
  unfold multiStep
  by_cases hk : catFileName pfx c.category ∈ bs.map Prod.fst
  · split <;> simp [bAppend_keys, hk, List.subset_append_left]
  · split <;> simp [bAppend_keys, hk, List.subset_append_left]

theorem multiStep_inv (st tidU pfx display : String) {bs : Buckets} {c : Chan}
    (h1 : (bs.map Prod.fst).Nodup) (h2 : ∀ kv ∈ bs, BOk kv.2) :
    ((multiStep st tidU pfx display bs c).map Prod.fst).Nodup ∧
    ∀ kv ∈ multiStep st tidU pfx display bs c, BOk kv.2 := by
  unfold multiStep
  split
  · next hempty =>
    have hgetnil : bGet bs (catFileName pfx c.category) = [] :=
      List.isEmpty_iff.1 hempty
    have hknotin : catFileName pfx c.category ∉ bs.map Prod.fst := by
      intro hmem
      rcases bGet_mem_of_mem_keys hmem with ⟨kv, hkv, _, hg⟩
      exact (h2 kv hkv).ne_nil (hg ▸ hgetnil)
    constructor
    · rw [bAppend_keys, bAppend_keys, if_neg hknotin, if_pos (by simp)]
      simp [List.nodup_append, h1, hknotin]
    · intro kv hkv
      rcases bAppend_mem hkv with hin | ⟨_, hval⟩
      · rcases bAppend_mem hin with hin2 | ⟨_, hval2⟩
        · exact h2 kv hin2
        · rw [hval2, hgetnil, List.nil_append]
          exact ⟨_, [], rfl, isNameHeader_multiHeader display c.category, rfl⟩
      · rw [hval, bGet_bAppend_self, hgetnil, List.nil_append]
        exact ⟨_, [chanEntry st tidU c], rfl, isNameHeader_multiHeader display c.category,
          by simp [List.countP_cons, isNameHeader_chanEntry]⟩
  · next hnonempty =>
    have hne : bGet bs (catFileName pfx c.category) ≠ [] := by
      intro hh
      rw [hh] at hnonempty
      simp at hnonempty
    constructor
    · rcases bGet_ne_nil_mem hne with ⟨kv, hkv, hk1, _⟩
      have hmem : catFileName pfx c.category ∈ bs.map Prod.fst :=
        List.mem_map.2 ⟨kv, hkv, hk1⟩
      rw [bAppend_keys, if_pos hmem]
      exact h1
    · intro kv hkv
      rcases bAppend_mem hkv with hin | ⟨_, hval⟩
      · exact h2 _ hin
      · rcases bGet_ne_nil_mem hne with ⟨kv0, hkv0, _, hg⟩
        rw [hval, hg]
        exact (h2 _ hkv0).append_entry (isNameHeader_chanEntry st tidU c)

theorem multiFoldl_inv (st tidU pfx display : String) : ∀ (l : List Chan) (bs : Buckets),
    (bs.map Prod.fst).Nodup → (∀ kv ∈ bs, BOk kv.2) →
      ((l.foldl (multiStep st tidU pfx display) bs).map Prod.fst).Nodup ∧
      ∀ kv ∈ l.foldl (multiStep st tidU pfx display) bs, BOk kv.2
  | [], bs, h1, h2 => ⟨h1, h2⟩
  | c :: cs, bs, h1, h2 => by
    rw [List.foldl_cons]
    have h := multiStep_inv st tidU pfx display (c := c) h1 h2
    exact multiFoldl_inv st tidU pfx display cs _ h.1 h.2

theorem multiFoldl_keys_mono (st tidU pfx display : String) :
    ∀ (l : List Chan) (bs : Buckets),
      bs.map Prod.fst ⊆ (l.foldl (multiStep st tidU pfx display) bs).map Prod.fst
  | [], _ => fun _ h => h
  | c :: cs, bs => by
    rw [List.foldl_cons]
    exact fun x hx =>
      multiFoldl_keys_mono st tidU pfx display cs _ (multiStep_keys_mono hx)

theorem multiFoldl_mem_keys (st tidU pfx display : String) :
    ∀ (l : List Chan) (bs : Buckets) (c : Chan), c ∈ l →
      catFileName pfx c.category ∈ (l.foldl (multiStep st tidU pfx display) bs).map Prod.fst
  | [], _, _, h => absurd h (List.not_mem_nil _)
  | c0 :: cs, bs, c, h => by
    rw [List.foldl_cons]
    rcases List.mem_cons.1 h with h | h
    · subst h
      exact multiFoldl_keys_mono st tidU pfx display cs _ multiStep_key_mem
    · exact multiFoldl_mem_keys st tidU pfx display cs _ c h

theorem multiFoldl_keys_origin (st tidU pfx display : String) :
    ∀ (l : List Chan) (bs : Buckets) (kv : String × List String),
      kv ∈ l.foldl (multiStep st tidU pfx display) bs →
        kv.1 ∈ bs.map Prod.fst ∨ ∃ c ∈ l, kv.1 = catFileName pfx c.category
  | [], bs, kv, h => Or.inl (List.mem_map_of_mem Prod.fst h)
  | c0 :: cs, bs, kv, h => by
    rw [List.foldl_cons] at h
    rcases multiFoldl_keys_origin st tidU pfx display cs _ kv h with h2 | ⟨c, hc, he⟩
    · rcases List.mem_append.1 (multiStep_keys_bound h2) with h3 | h3
      · exact Or.inl h3
      · exact Or.inr ⟨c0, List.mem_cons_self _ _, by simpa using h3⟩
    · exact Or.inr ⟨c, List.mem_cons_of_mem _ hc, he⟩

/-- C9: in multi-file mode every distinct category of the input produces
exactly one bucket, whose filename is the pure deterministic function of the
category (provider stem, underscore, normalized slug, .tv); the bucket
filenames carry no duplicates; every bucket belongs to some input category;
and each bucket starts with exactly one header line, placed first. -/
theorem c9_multi_file_buckets :
    ∀ (st tidU pfx display : String) (channels : List Chan),
      ((multiBouquet st tidU pfx display channels).map Prod.fst).Nodup ∧
      (∀ c ∈ channels, catFileName pfx c.category ∈
        (multiBouquet st tidU pfx display channels).map Prod.fst) ∧
      (∀ kv ∈ multiBouquet st tidU pfx display channels,
        ∃ c ∈ channels, kv.1 = catFileName pfx c.category) ∧
      (∀ kv ∈ multiBouquet st tidU pfx display channels,
        kv.2.countP (fun s => isNameHeader s) = 1 ∧
        isNameHeader (kv.2.headD "") = true) ∧
      (∀ c₁ c₂ : Chan, c₁.category = c₂.category →
        catFileName pfx c₁.category = catFileName pfx c₂.category) := by
  intro st tidU pfx display channels
  have hinv := multiFoldl_inv st tidU pfx display channels [] (by simp) (by simp)
  refine ⟨hinv.1, ?_, ?_, ?_, ?_⟩
  · intro c hc
    exact multiFoldl_mem_keys st tidU pfx display channels [] c hc
  · intro kv hkv
    rcases multiFoldl_keys_origin st tidU pfx display channels [] kv hkv with h | h
    · simp at h
    · exact h
  · intro kv hkv
    have hb := hinv.2 kv hkv
    refine ⟨hb.countP_one, ?_⟩
    rcases hb with ⟨hd, tl, hv, hh, _⟩
    rw [hv]
    simpa using hh
  · intro c₁ c₂ h
    rw [h]

/-! ## EPG channel map serialization (fast2bouquet.py lines 879-894)

The source sorts the records by lowercased name and writes one channel
element per record; the channel id is interpolated into the id attribute
verbatim, with no XML escaping of any kind. -/

/-- Name comparator of the EPG sort (fast2bouquet.py line 880). -/
def nameLe (a b : Chan) : Prop := (pyLower a.name).data ≤ (pyLower b.name).data

instance : DecidableRel nameLe := fun a b => by unfold nameLe; infer_instance

instance : IsTotal Chan nameLe := ⟨fun a b => le_total _ _⟩

instance : IsTrans Chan nameLe := ⟨fun _ _ _ h1 h2 => le_trans h1 h2⟩

/-- One EPG map entry (fast2bouquet.py lines 885-887), a single written
string; note the blank before the newline, as in the source. -/
def xmlEntry (st tidU : String) (c : Chan) : String :=
  "\t<channel id=\"" ++ c.channel_id ++ "\">" ++ st ++ ":0:1:" ++ hex4 c.sid ++
    ":" ++ tidU ++ ":0:0:0:0:0:http%3a//pluto.tv" ++ "</channel> \n"

/-- The strings written to the channels file in order (fast2bouquet.py
lines 889-892): prologue, one entry per record sorted by lowercased name,
epilogue. -/
def epgParts (st tidU : String) (channels : List Chan) : List String :=
  "<?xml version=\"1.0\" encoding=\"utf-8\"?>\n<channels>\n" ::
    ((channels.insertionSort nameLe).map (xmlEntry st tidU) ++ ["</channels>\n"])

/-- The full text of the EPG channel map document. -/
def epgDoc (st tidU : String) (channels : List Chan) : String :=
  String.join (epgParts st tidU channels)

/-! ### A well-formedness checker for the document

ampOk is a necessary condition of XML well-formedness: every ampersand
must begin an entity or character reference, so the character after it is
a name-start character or a sharp.  The entryOk scanner checks the full
shape of one channel element with an unescaped-special-free attribute
value and text. -/

/-- Necessary condition for XML: each ampersand starts a reference. -/
def ampOk : List Char → Bool
  | [] => true
  | c :: rest =>
    if c = '&' then
      match rest with
      | [] => false
      | c2 :: _ => (c2.isAlpha || c2 = '#' || c2 = '_') && ampOk rest
    else ampOk rest

/-- Strings free of the XML-special characters that break this document:
ampersand, left angle and the double quote. -/
def xmlSafeB (s : String) : Bool :=
  s.data.all (fun c => !(c == '&' || c == '<' || c == '"'))

/-- Expect a literal text; yield the remainder. -/
def dropLit : List Char → List Char → Option (List Char)
  | [], rest => some rest
  | _ :: _, [] => none
  | c :: cs, d :: ds => if c = d then dropLit cs ds else none

/-- Scan an attribute value up to its closing quote; unescaped ampersands
and left angles are malformed inside an attribute value. -/
def scanAttr : List Char → Option (List Char)
  | [] => none
  | c :: cs =>
    if c = '"' then some cs
    else if c = '&' ∨ c = '<' then none
    else scanAttr cs

/-- Scan character data up to the next left angle; unescaped ampersands
are malformed in character data. -/
def scanText : List Char → Option (List Char)
  | [] => none
  | c :: cs =>
    if c = '<' then some (c :: cs)
    else if c = '&' then none
    else scanText cs

/-- Shape check of one serialized channel element. -/
def entryOk (s : String) : Bool :=
  match dropLit "\t<channel id=\"".data s.data with
  | none => false
  | some r1 =>
    match scanAttr r1 with
    | none => false
    | some r2 =>
      match r2 with
      | '>' :: r3 =>
        match scanText r3 with
        | some r4 => r4 == "</channel> \n".data
        | none => false
      | _ => false

/-- Check the written parts after the prologue: channel elements then the
closing root tag. -/
def epgEntriesOk : List String → Bool
  | [] => false
  | e :: rest =>
    if rest.isEmpty then e == "</channels>\n" else entryOk e && epgEntriesOk rest

/-- Shape check of the whole document as written: the XML declaration and
root opening, the channel elements, the root closing. -/
def epgPartsOk : List String → Bool
  | [] => false
  | p :: rest =>
    (p == "<?xml version=\"1.0\" encoding=\"utf-8\"?>\n<channels>\n") && epgEntriesOk rest

theorem dropLit_append (r : List Char) : ∀ lit : List Char, dropLit lit (lit ++ r) = some r
  | [] => rfl
  | c :: cs => by
    rw [List.cons_append, dropLit, if_pos rfl]
    exact dropLit_append r cs

theorem scanAttr_append {r : List Char} : ∀ {v : List Char},
    (∀ c ∈ v, c ≠ '"' ∧ c ≠ '&' ∧ c ≠ '<') → scanAttr (v ++ '"' :: r) = some r
  | [], _ => by rw [List.nil_append, scanAttr, if_pos rfl]
  | c :: cs, h => by
    have hc := h c (List.mem_cons_self _ _)
    rw [List.cons_append, scanAttr, if_neg hc.1, if_neg (by push_neg; exact hc.2)]
    exact scanAttr_append fun d hd => h d (List.mem_cons_of_mem _ hd)

theorem scanText_append {r : List Char} : ∀ {v : List Char},
    (∀ c ∈ v, c ≠ '<' ∧ c ≠ '&') → scanText (v ++ '<' :: r) = some ('<' :: r)
  | [], _ => by rw [List.nil_append, scanText, if_pos rfl]
  | c :: cs, h => by
    have hc := h c (List.mem_cons_self _ _)
    rw [List.cons_append, scanText, if_neg hc.1, if_neg hc.2]
    exact scanText_append fun d hd => h d (List.mem_cons_of_mem _ hd)

theorem isHexDigitUp_not_special {c : Char} (h : isHexDigitUp c = true) :
    c ≠ '<' ∧ c ≠ '&' := by
  constructor <;> intro he <;> subst he <;> simp [isHexDigitUp] at h

theorem xmlSafeB_spec {s : String} (h : xmlSafeB s = true) :
    ∀ c ∈ s.data, c ≠ '&' ∧ c ≠ '<' ∧ c ≠ '"' := by
  intro c hc
  have h2 := (List.all_eq_true.1 h) c hc
  simp at h2
  exact ⟨h2.1.1, h2.1.2, h2.2⟩

theorem entryOk_of (s : String) (r1 r2 : List Char)
    (h1 : dropLit "\t<channel id=\"".data s.data = some r1)
    (h2 : scanAttr r1 = some ('>' :: r2))
    (h3 : scanText r2 = some ("</channel> \n".data)) : entryOk s = true := by
  unfold entryOk
  simp only [h1, h2, h3]
  simp

theorem entryOk_xmlEntry {st tidU : String} {c : Chan}
    (hst : xmlSafeB st = true) (htid : xmlSafeB tidU = true)
    (hid : xmlSafeB c.channel_id = true) : entryOk (xmlEntry st tidU c) = true := by
  have e1 : ("\">" : String).data = '"' :: '>' :: ([] : List Char) := rfl
  have e2 : ("</channel> \n" : String).data = '<' :: "/channel> \n".data := rfl
  have hbody : ∀ d ∈ st.data ++ (":0:1:".data ++ ((hex4 c.sid).data ++ (":".data ++
      (tidU.data ++ ":0:0:0:0:0:http%3a//pluto.tv".data)))), d ≠ '<' ∧ d ≠ '&' := by
    intro d hd
    simp only [List.mem_append] at hd
    rcases hd with hd | hd | hd | hd | hd | hd
    · have := xmlSafeB_spec hst d hd
      exact ⟨this.2.1, this.1⟩
    · refine ⟨?_, ?_⟩ <;> intro he <;> subst he <;> revert hd <;> decide
    · exact isHexDigitUp_not_special (hex4_chars_hex c.sid d hd)
    · refine ⟨?_, ?_⟩ <;> intro he <;> subst he <;> revert hd <;> decide
    · have := xmlSafeB_spec htid d hd
      exact ⟨this.2.1, this.1⟩
    · refine ⟨?_, ?_⟩ <;> intro he <;> subst he <;> revert hd <;> decide
  have hdata : (xmlEntry st tidU c).data =
      "\t<channel id=\"".data ++
        (c.channel_id.data ++ ('"' :: ('>' ::
          ((st.data ++ (":0:1:".data ++ ((hex4 c.sid).data ++ (":".data ++
            (tidU.data ++ ":0:0:0:0:0:http%3a//pluto.tv".data))))) ++
           ('<' :: "/channel> \n".data))))) := by
    simp only [xmlEntry, String.data_append, List.append_assoc, e1, e2,
      List.cons_append, List.nil_append]
  apply entryOk_of
  · rw [hdata]
    exact dropLit_append _ _
  · exact scanAttr_append fun d hd => by
      have := xmlSafeB_spec hid d hd
      exact ⟨this.2.2, this.1, this.2.1⟩
  · rw [e2]
    exact scanText_append hbody

theorem epgEntriesOk_of {st tidU : String} (hst : xmlSafeB st = true)
    (htid : xmlSafeB tidU = true) :
    ∀ {l : List Chan}, (∀ c ∈ l, xmlSafeB c.channel_id = true) →
      epgEntriesOk (l.map (xmlEntry st tidU) ++ ["</channels>\n"]) = true
  | [], _ => by
    rw [List.map_nil, List.nil_append]
    rfl
  | c :: cs, h => by
    rw [List.map_cons, List.cons_append, epgEntriesOk]
    have hne : ((cs.map (xmlEntry st tidU) ++ ["</channels>\n"])).isEmpty = false := by
      cases cs.map (xmlEntry st tidU) <;> rfl
    rw [if_neg (by simp [hne]), entryOk_xmlEntry hst htid (h c (List.mem_cons_self _ _)),
      epgEntriesOk_of hst htid fun d hd => h d (List.mem_cons_of_mem _ hd)]
    rfl

/-- C1 (amended): the EPG map serializer performs no XML escaping — the
external channel identifier is interpolated into the id attribute verbatim
— so the emitted document is well-formed only when the interpolated
strings are free of the XML-special characters ampersand, left angle and
double quote; under that proviso the whole written document passes the
structural well-formedness check (declaration and root, one properly
quoted and closed channel element per record, closing root tag). -/
theorem c1_epg_wellformed_amended (st tidU : String) (channels : List Chan)
    (hst : xmlSafeB st = true) (htid : xmlSafeB tidU = true)
    (hid : ∀ c ∈ channels, xmlSafeB c.channel_id = true) :
    epgPartsOk (epgParts st tidU channels) = true ∧
    epgDoc st tidU channels = String.join (epgParts st tidU channels) ∧
    ∀ c ∈ channels, xmlEntry st tidU c =
      "\t<channel id=\"" ++ c.channel_id ++ "\">" ++ st ++ ":0:1:" ++ hex4 c.sid ++
        ":" ++ tidU ++ ":0:0:0:0:0:http%3a//pluto.tv" ++ "</channel> \n" := by
  refine ⟨?_, rfl, fun c _ => rfl⟩
  unfold epgParts
  rw [epgPartsOk]
  rw [epgEntriesOk_of hst htid fun d hd =>
    hid d ((List.perm_insertionSort nameLe channels).subset hd)]
  rfl

/-- A record whose external identifier and name carry XML-special
characters. -/
def cBad : Chan :=
  { sid := 3, ch_number := none, name := "A & B <C> \"D\"", category := "News",
    channel_id := "A & B <C> \"D\"", logo_url := "", url := "u",
    user_agent := none }

set_option maxRecDepth 100000 in
/-- C1 counterexample: for a record whose identifier contains ampersand,
angle and quote, the emitted document contains a bare ampersand followed by
a space — which no XML parser accepts, ampOk being a necessary condition of
well-formedness — the escaped form does not occur anywhere in the document,
and the channel element fails the structural check. -/
theorem c1_escaping_counterexample :
    cBad.channel_id = "A & B <C> \"D\"" ∧
    ampOk (epgDoc "4097" "ABCD" [cBad]).data = false ∧
    ¬ ("&amp;".data <:+: (epgDoc "4097" "ABCD" [cBad]).data) ∧
    entryOk (xmlEntry "4097" "ABCD" cBad) = false := by
  refine ⟨rfl, ?_, ?_, ?_⟩ <;> decide

/-- Witness for c1_epg_wellformed_amended at a concrete safe channel
list. -/
theorem c1_epg_wellformed_witness :
    epgPartsOk (epgParts "4097" "ABCD" [mkCat "News" "n1"]) = true ∧
    epgDoc "4097" "ABCD" [mkCat "News" "n1"] =
      String.join (epgParts "4097" "ABCD" [mkCat "News" "n1"]) ∧
    ∀ c ∈ [mkCat "News" "n1"], xmlEntry "4097" "ABCD" c =
      "\t<channel id=\"" ++ c.channel_id ++ "\">" ++ "4097" ++ ":0:1:" ++
        hex4 c.sid ++ ":" ++ "ABCD" ++ ":0:0:0:0:0:http%3a//pluto.tv" ++
        "</channel> \n" :=
  c1_epg_wellformed_amended "4097" "ABCD" [mkCat "News" "n1"] (by decide) (by decide)
    (by decide)

/-! ## write_bouquets (fast2bouquet.py lines 751-780)

The filesystem is modelled as a total map from path to file content; a
path never written reads as the empty string.  Opening with mode w and
writing replaces the content; opening with mode a appends to it. -/

/-- A filesystem state: content by path. -/
def FS := String → String

/-- Overwrite a file (open mode w followed by writelines). -/
def fsWrite (fs : FS) (path content : String) : FS :=
  fun q => if q = path then content else fs q

/-- Append to a file (open mode a followed by writelines). -/
def fsAppend (fs : FS) (path content : String) : FS :=
  fun q => if q = path then fs q ++ content else fs q

/-- Path join for a relative name (os.path.join). -/
def pathJoin (dir nm : String) : String := dir ++ "/" ++ nm

/-- One master-index reference line (fast2bouquet.py line 775). -/
def refLine (filename : String) : String :=
  "#SERVICE 1:7:1:0:0:0:0:0:0:0:FROM BOUQUET \"" ++ filename ++
    "\" ORDER BY bouquet\n"

/-- Filename comparator: Python string comparison is code-point
lexicographic. -/
def fnLe (a b : String) : Prop := a.data ≤ b.data

instance : DecidableRel fnLe := fun a b => by unfold fnLe; infer_instance

instance : IsTotal String fnLe := ⟨fun a b => le_total _ _⟩

instance : IsTrans String fnLe := ⟨fun _ _ _ h1 h2 => le_trans h1 h2⟩

/-- Model of sorted(bouquet_data.keys(), reverse=reverse) at line 767:
ascending for reverse false; for reverse true Python's stable descending
sort, which on the duplicate-free keys of a dict is the reversed ascending
order. -/
def sortedFilenames (names : List String) (reverse : Bool) : List String :=
  if reverse then (names.insertionSort fnLe).reverse else names.insertionSort fnLe

/-- Model of write_bouquets (fast2bouquet.py lines 751-780): write every
bucket file in sorted filename order, collect one reference line per file,
then append them all to bouquets.tv — only when there is at least one. -/
def write_bouquets (bouquet_data : Buckets) (bouquet_dir : String) (reverse : Bool)
    (fs : FS) : FS :=
  let filenames := sortedFilenames (bouquet_data.map Prod.fst) reverse
  let fs1 := filenames.foldl
    (fun acc fn => fsWrite acc (pathJoin bouquet_dir fn)
      (String.join (bGet bouquet_data fn))) fs
  let refs := filenames.map refLine
  if refs.isEmpty then fs1
  else fsAppend fs1 (pathJoin bouquet_dir "bouquets.tv") (String.join refs)

theorem pathJoin_inj {dir a b : String} (h : pathJoin dir a = pathJoin dir b) : a = b := by
  unfold pathJoin at h
  have h2 := congrArg String.data h
  simp only [String.data_append, List.append_assoc] at h2
  have h3 := List.append_cancel_left (List.append_cancel_left h2)
  cases a
  cases b
  exact congrArg String.mk (by simpa using h3)

theorem foldl_write_untouched {dir fn0 : String} {data : Buckets} :
    ∀ (names : List String) (g : FS), fn0 ∉ names →
      (names.foldl (fun acc fn => fsWrite acc (pathJoin dir fn)
        (String.join (bGet data fn))) g) (pathJoin dir fn0) = g (pathJoin dir fn0)
  | [], g, _ => rfl
  | n :: ns, g, h => by
    rw [List.foldl_cons,
      foldl_write_untouched ns _ (fun hh => h (List.mem_cons_of_mem _ hh))]
    unfold fsWrite
    rw [if_neg]
    intro he
    exact h (pathJoin_inj he ▸ List.mem_cons_self n ns)

theorem foldl_write_at {dir fn0 : String} {data : Buckets} :
    ∀ (names : List String) (g : FS), names.Nodup → fn0 ∈ names →
      (names.foldl (fun acc fn => fsWrite acc (pathJoin dir fn)
        (String.join (bGet data fn))) g) (pathJoin dir fn0) =
      String.join (bGet data fn0)
  | [], _, _, h => absurd h (List.not_mem_nil _)
  | n :: ns, g, hnd, h => by
    rw [List.foldl_cons]
    rcases List.mem_cons.1 h with h | h
    · subst h
      rw [foldl_write_untouched ns _ (List.nodup_cons.1 hnd).1]
      unfold fsWrite
      rw [if_pos rfl]
    · exact foldl_write_at ns _ (List.nodup_cons.1 hnd).2 h

theorem bGet_of_nodup {kv : String × List String} :
    ∀ {data : Buckets}, (data.map Prod.fst).Nodup → kv ∈ data → bGet data kv.1 = kv.2
  | [], _, h => absurd h (List.not_mem_nil _)
  | (k0, v0) :: rest, hnd, h => by
    have hnd2 : (k0 :: rest.map Prod.fst).Nodup := by rw [List.map_cons] at hnd; exact hnd
    rcases List.mem_cons.1 h with h | h
    · subst h
      simp [bGet, List.find?]
    · have hne : (k0 == kv.1) = false := by
        have hk := (List.nodup_cons.1 hnd2).1
        simp only [beq_eq_false_iff_ne, ne_eq]
        intro he
        exact hk (he ▸ List.mem_map_of_mem Prod.fst h)
      rw [bGet, List.find?]
      rw [hne]
      exact bGet_of_nodup (List.nodup_cons.1 hnd2).2 h

theorem sortedFilenames_perm (names : List String) (reverse : Bool) :
    (sortedFilenames names reverse).Perm names := by
  unfold sortedFilenames
  split
  · exact (List.reverse_perm _).trans (List.perm_insertionSort fnLe names)
  · exact List.perm_insertionSort fnLe names

/-- C8 (with the two side conditions the caller establishes: bucket
filenames are duplicate-free and none of them is the master index itself):
write_bouquets writes every bucket file with exactly its lines, appends —
never truncates — one reference line per bucket to bouquets.tv with the old
content preserved as a prefix, orders the references by filename ascending,
or descending when reverse is set, and leaves the whole filesystem
untouched when there are no buckets. -/
theorem c8_write_bouquets (data : Buckets) (dir : String) (rev : Bool) (fs : FS)
    (hnodup : (data.map Prod.fst).Nodup)
    (hnotv : "bouquets.tv" ∉ data.map Prod.fst) :
    (write_bouquets data dir rev fs (pathJoin dir "bouquets.tv") =
      fs (pathJoin dir "bouquets.tv") ++
        String.join ((sortedFilenames (data.map Prod.fst) rev).map refLine)) ∧
    ((sortedFilenames (data.map Prod.fst) rev).map refLine).length = data.length ∧
    (∀ kv ∈ data, write_bouquets data dir rev fs (pathJoin dir kv.1) =
      String.join kv.2) ∧
    (rev = false → (sortedFilenames (data.map Prod.fst) rev).Pairwise fnLe) ∧
    (rev = true →
      (sortedFilenames (data.map Prod.fst) rev).Pairwise (fun a b => fnLe b a)) ∧
    (data = [] → write_bouquets data dir rev fs = fs) := by
  have hperm := sortedFilenames_perm (data.map Prod.fst) rev
  have hnd : (sortedFilenames (data.map Prod.fst) rev).Nodup := hperm.nodup_iff.2 hnodup
  have htvnot : "bouquets.tv" ∉ sortedFilenames (data.map Prod.fst) rev :=
    fun h => hnotv (hperm.subset h)
  refine ⟨?_, ?_, ?_, ?_, ?_, ?_⟩
  · unfold write_bouquets
    split
    · next hempty =>
      have hnil : sortedFilenames (data.map Prod.fst) rev = [] := by
        rcases hs : sortedFilenames (data.map Prod.fst) rev with _ | ⟨x, xs⟩
        · rfl
        · rw [hs] at hempty
          simp at hempty
      rw [hnil]
      show fs _ = fs _ ++ String.join (List.map refLine [])
      rw [List.map_nil]
      have hj : String.join ([] : List String) = "" := rfl
      rw [hj, String.append_empty]
    · rw [fsAppend, if_pos rfl, foldl_write_untouched _ fs htvnot]
  · rw [List.length_map, hperm.length_eq, List.length_map]
  · intro kv hkv
    have hmem : kv.1 ∈ sortedFilenames (data.map Prod.fst) rev :=
      hperm.mem_iff.2 (List.mem_map_of_mem Prod.fst hkv)
    have hk1 : kv.1 ≠ "bouquets.tv" := fun he => hnotv (he ▸ List.mem_map_of_mem Prod.fst hkv)
    unfold write_bouquets
    split
    · rw [foldl_write_at _ fs hnd hmem, bGet_of_nodup hnodup hkv]
    · rw [fsAppend, if_neg (fun he => hk1 (pathJoin_inj he)),
        foldl_write_at _ fs hnd hmem, bGet_of_nodup hnodup hkv]
  · intro hrev
    subst hrev
    unfold sortedFilenames
    exact List.sorted_insertionSort fnLe (data.map Prod.fst)
  · intro hrev
    subst hrev
    unfold sortedFilenames
    rw [if_pos rfl, List.pairwise_reverse]
    exact List.sorted_insertionSort fnLe (data.map Prod.fst)
  · intro hdata
    subst hdata
    unfold write_bouquets sortedFilenames
    cases rev <;> rfl

/-- Witness data for write_bouquets: two buckets, a master index holding
one prior line. -/
def wFS : FS := fun q => if q = "d/bouquets.tv" then "OLD\n" else ""

/-- Witness for c8_write_bouquets at concrete buckets. -/
theorem c8_write_bouquets_witness :
    (write_bouquets [("a.tv", ["x\n"]), ("b.tv", ["y\n"])] "d" false wFS
        (pathJoin "d" "bouquets.tv") =
      wFS (pathJoin "d" "bouquets.tv") ++
        String.join ((sortedFilenames ["a.tv", "b.tv"] false).map refLine)) ∧
    ((sortedFilenames ["a.tv", "b.tv"] false).map refLine).length =
      [("a.tv", ["x\n"]), ("b.tv", ["y\n"])].length ∧
    (∀ kv ∈ [("a.tv", ["x\n"]), ("b.tv", ["y\n"])],
      write_bouquets [("a.tv", ["x\n"]), ("b.tv", ["y\n"])] "d" false wFS
        (pathJoin "d" kv.1) = String.join kv.2) ∧
    (false = false → (sortedFilenames ["a.tv", "b.tv"] false).Pairwise fnLe) ∧
    (false = true →
      (sortedFilenames ["a.tv", "b.tv"] false).Pairwise (fun a b => fnLe b a)) ∧
    ([("a.tv", ["x\n"]), ("b.tv", ["y\n"])] = [] →
      write_bouquets [("a.tv", ["x\n"]), ("b.tv", ["y\n"])] "d" false wFS = wFS) := by
  have h := c8_write_bouquets [("a.tv", ["x\n"]), ("b.tv", ["y\n"])] "d" false wFS
    (by decide) (by decide)
  exact h

/-! ## Configuration gating (fast2bouquet.py lines 1181-1190 and 832-836)

The provider list is validated before the provider loop; an unknown name
without the all keyword logs and returns — no fetch and no write happens.
The picon geometry, in contrast, is parsed inside process_channels in a
try block whose ValueError handler substitutes the 220x132 default, so an
unparseable geometry never aborts anything. -/

/-- The supported provider identifiers (fast2bouquet.py line 26). -/
def SUPPORTED_PROVIDERS : List String := ["plutotv", "rakutentv", "stvp"]

/-- Model of Python str.strip with no argument (ASCII whitespace). -/
def pyStrip (s : String) : String :=
  ⟨((s.data.dropWhile Char.isWhitespace).reverse.dropWhile Char.isWhitespace).reverse⟩

/-- Helper of the separator split: push a character onto the first piece. -/
def consHead (c : Char) : List (List Char) → List (List Char)
  | [] => [[c]]
  | p :: ps => (c :: p) :: ps

/-- Split a character list at every separator occurrence, keeping empty
pieces, as Python str.split with an explicit separator does. -/
def splitSep (sep : Char) : List Char → List (List Char)
  | [] => [[]]
  | c :: cs => if c = sep then [] :: splitSep sep cs else consHead c (splitSep sep cs)

/-- Model of Python str.split with a one-character separator. -/
def pySplit (sep : Char) (s : String) : List String :=
  (splitSep sep s.data).map String.mk

/-- The requested provider list (fast2bouquet.py lines 1181-1182):
lowercase, split on commas, strip each piece. -/
def selectedProviders (provider : String) : List String :=
  (pySplit ',' (pyLower provider)).map pyStrip

/-- The validation gate of main (fast2bouquet.py lines 1185-1190): none
models the early return on an unknown provider without the all keyword. -/
def providerGate (provider : String) : Option (List String) :=
  let sel := selectedProviders provider
  if "all" ∈ sel then some sel
  else if sel.filter (fun p => p ∉ SUPPORTED_PROVIDERS) = [] then some sel
  else none

/-- Externally visible effects of a run. -/
inductive Effect where
  | fetch (pid : String)
  | write (pid : String)
deriving DecidableEq

/-- The provider services main instantiates, in source order
(fast2bouquet.py lines 1195-1217). -/
def servicesFor (sel : List String) : List String :=
  (if "all" ∈ sel ∨ "plutotv" ∈ sel then ["plutotv"] else []) ++
  (if "all" ∈ sel ∨ "rakutentv" ∈ sel then ["rakutentv"] else []) ++
  (if "all" ∈ sel ∨ "stvp" ∈ sel then ["stvp"] else [])

/-- Coarse effect trace of main (fast2bouquet.py lines 1171-1303): the
provider gate runs before the provider loop, so a failed gate produces no
effect at all; otherwise every selected provider is fetched and its files
written.  The picon geometry never appears in the control flow: an
unparseable value is replaced by the 220x132 fallback inside
process_channels (lines 832-836). -/
def mainEffects (provider picon_size : String) : List Effect :=
  match providerGate provider with
  | none => []
  | some sel => (servicesFor sel).foldr
      (fun pid acc => Effect.fetch pid :: Effect.write pid :: acc) []

/-- Model of the picon dimension extraction of process_channels
(fast2bouquet.py lines 832-836): lowercase, split on x, unpack when the
split has exactly two parts; any other shape raises ValueError, which the
handler turns into the 220x132 default. -/
def piconDims (picon_size : String) : String × String :=
  match pySplit 'x' (pyLower picon_size) with
  | [w, h] => (w, h)
  | _ => ("220", "132")

/-- C2 (amended): an invalid provider identity is fatal and short-circuits
the run before any fetch or filesystem write; an invalid picon geometry is
not fatal — the run proceeds and process_channels silently substitutes the
220x132 default — and a two-piece split is taken as given even when the
pieces are not numerals. -/
theorem c2_config_gate_amended (provider picon_size : String)
    (hall : "all" ∉ selectedProviders provider)
    (hbad : (selectedProviders provider).filter
      (fun p => p ∉ SUPPORTED_PROVIDERS) ≠ []) :
    providerGate provider = none ∧
    mainEffects provider picon_size = [] ∧
    (∀ s w h, pySplit 'x' (pyLower s) = [w, h] → piconDims s = (w, h)) ∧
    (∀ s : String, (pySplit 'x' (pyLower s)).length ≠ 2 →
      piconDims s = ("220", "132")) := by
  have hg : providerGate provider = none := by
    unfold providerGate
    rw [if_neg hall, if_neg hbad]
  refine ⟨hg, ?_, ?_, ?_⟩
  · unfold mainEffects
    rw [hg]
  · intro s w h he
    unfold piconDims
    rw [he]
  · intro s hlen
    unfold piconDims
    split
    · next he =>
      rw [he] at hlen
      simp at hlen
    · rfl

/-- C2 counterexample: with a well-known provider and the unparseable picon
geometry string garbage, the run does not abort — the gate passes, the
fetch and write effects happen, and process_channels falls back to the
220x132 dimensions — refuting the claim that an invalid geometry is fatal
before any I/O. -/
theorem c2_picon_size_counterexample :
    piconDims "garbage" = ("220", "132") ∧
    providerGate "plutotv" = some ["plutotv"] ∧
    mainEffects "plutotv" "garbage" =
      [Effect.fetch "plutotv", Effect.write "plutotv"] ∧
    mainEffects "plutotv" "garbage" ≠ [] := by
  refine ⟨?_, ?_, ?_, ?_⟩ <;> decide

/-- Witness for c2_config_gate_amended at a concrete unknown provider. -/
theorem c2_config_gate_witness :
    providerGate "xyz" = none ∧
    mainEffects "xyz" "220x132" = [] ∧
    (∀ s w h, pySplit 'x' (pyLower s) = [w, h] → piconDims s = (w, h)) ∧
    (∀ s : String, (pySplit 'x' (pyLower s)).length ≠ 2 →
      piconDims s = ("220", "132")) :=
  c2_config_gate_amended "xyz" "220x132" (by decide) (by decide)

/-- A concrete record used to instantiate the serialization theorems. -/
def wChan : Chan :=
  { sid := 155, ch_number := some 5, name := "News One", category := "News",
    channel_id := "abc", logo_url := "", url := "http://x/y",
    user_agent := some "okhttp/4.12.0" }

/-- Concrete value of the two-line entry for wChan: the colon of the scheme
is escaped, the user-agent directive rides inside the locator, the SID 155
prints as 009B. -/
theorem chanEntry_wChan_value :
    chanEntry "4097" "ABCD" wChan =
      "#SERVICE 4097:0:1:009B:ABCD:0:0:0:0:0:http%3a//x/y#User-Agent=okhttp/4.12.0:News One\n#DESCRIPTION News One\n" := by
  decide

/-- Witness for c6_entry_encoding at a concrete channel. -/
theorem c6_entry_encoding_witness :
    chanEntry "4097" "ABCD" wChan =
        serviceLine "4097" "ABCD" wChan ++ "\n" ++ descLine wChan ++ "\n" ∧
    serviceLine "4097" "ABCD" wChan =
      "#SERVICE " ++ "4097" ++ ":0:1:" ++ hex4 wChan.sid ++ ":" ++ "ABCD" ++
        ":0:0:0:0:0:" ++ urlEsc wChan ++ ":" ++ wChan.name ∧
    descLine wChan = "#DESCRIPTION " ++ wChan.name ∧
    '\n' ∉ (serviceLine "4097" "ABCD" wChan).data ∧
    '\n' ∉ (descLine wChan).data ∧
    (hex4 wChan.sid).data.length = 4 ∧
    (∀ ch ∈ (hex4 wChan.sid).data, isHexDigitUp ch = true) ∧
    urlEsc wChan = colonEsc (wChan.url ++ uaSuffix wChan) ∧
    (∀ u, wChan.user_agent = some u → u ≠ "" → uaSuffix wChan = "#User-Agent=" ++ u) :=
  c6_entry_encoding "4097" "ABCD" wChan (by decide) (by decide) (by decide)
    (by decide) (by decide) (by decide)

end F2B
